import Mathlib

/-!
Verification of the mergeable-histogram accumulator demonstrated in the
coffea-hats notebooks.  The in-repository code is the `myTH1` class and the
`add_histos` function of `01-histograms.ipynb`; real values and weights are
embedded as rationals (the notebooks use floating point, whose rounding the
spec explicitly sets aside).  Components that the notebooks only call in the
external library (numeric axis with under/overflow sentinels, growable
categorical axis, best-effort executor) are modelled from the spec and marked
as such on their definitions.
-/

namespace CoffeaHats

/-- `np.histogram(values, bins, weights)` bin membership for bin `i` of the
edge list: `edges[i] <= v < edges[i+1]`, except that the last bin is closed on
the right (`edges[B-1] <= v <= edges[B]`); values outside the edge range
belong to no bin and are dropped. -/
def npInBin (edges : List ℚ) (i : Nat) (v : ℚ) : Bool :=
  decide (edges.getD i 0 ≤ v) &&
    (if i + 2 = edges.length then decide (v ≤ edges.getD (i + 1) 0)
     else decide (v < edges.getD (i + 1) 0))

/-- The weighted-count array returned by `np.histogram(values, bins=edges,
weights=weights)`: one cell per bin (`edges.length - 1` cells), each holding
the sum of the weights of the events whose value falls in that bin.  Events
are `(value, weight)` pairs; an unweighted fill is weight 1 per value. -/
def histCounts (edges : List ℚ) (events : List (ℚ × ℚ)) : List ℚ :=
  (List.range (edges.length - 1)).map fun i =>
    ((events.filter fun e => npInBin edges i e.1).map Prod.snd).sum

/-- The `myTH1` class of `01-histograms.ipynb`: a binning (edge array) fixed
at construction and a dense weighted-count array `_sumw`. -/
structure myTH1 where
  binning : List ℚ
  sumw : List ℚ
  deriving DecidableEq, Repr

namespace myTH1

/-- `myTH1.__init__`: `_sumw = np.zeros(binning.size - 1)`. -/
def init (binning : List ℚ) : myTH1 :=
  ⟨binning, List.replicate (binning.length - 1) 0⟩

/-- `myTH1.fill`: `self._sumw += np.histogram(values, bins=self._binning,
weights=weights)[0]`. -/
def fill (h : myTH1) (events : List (ℚ × ℚ)) : myTH1 :=
  ⟨h.binning, h.sumw.zipWith (· + ·) (histCounts h.binning events)⟩

/-- `myTH1.__add__`: raises `ValueError("The histograms have inconsistent
binning")` unless `np.array_equal(other._binning, self._binning)` (same shape
and same elements, i.e. equal edge lists); otherwise returns a freshly
constructed histogram whose `_sumw` is the cell-wise sum. -/
def add (h other : myTH1) : Except String myTH1 :=
  if other.binning = h.binning then
    .ok ⟨h.binning, h.sumw.zipWith (· + ·) other.sumw⟩
  else
    .error "The histograms have inconsistent binning"

/-- Well-formedness maintained by the class: the count array has one cell per
bin, `binning.size - 1` entries. -/
def wf (h : myTH1) : Prop :=
  h.sumw.length = h.binning.length - 1

instance (h : myTH1) : Decidable h.wf := by
  unfold wf; infer_instance

end myTH1

instance {ε α : Type} [DecidableEq ε] [DecidableEq α] :
    DecidableEq (Except ε α) := fun a b =>
  match a, b with
  | .error x, .error y =>
    if h : x = y then .isTrue (by rw [h])
    else .isFalse fun he => by cases he; exact h rfl
  | .error _, .ok _ => .isFalse fun he => by cases he
  | .ok _, .error _ => .isFalse fun he => by cases he
  | .ok x, .ok y =>
    if h : x = y then .isTrue (by rw [h])
    else .isFalse fun he => by cases he; exact h rfl

/-- The standalone `add_histos` of `01-histograms.ipynb`, acting on
`(sumw, binning)` pairs as returned by `np.histogram`. -/
def add_histos (h1 h2 : List ℚ × List ℚ) : Except String (List ℚ × List ℚ) :=
  if h1.2 = h2.2 then
    .ok (h1.1.zipWith (· + ·) h2.1, h1.2)
  else
    .error "The histograms have inconsistent binning"

/-! ### Arithmetic helper lemmas for zipWith -/

theorem zipWith_add_comm (a b : List ℚ) :
    a.zipWith (· + ·) b = b.zipWith (· + ·) a := by
  induction a generalizing b with
  | nil => cases b <;> rfl
  | cons x xs ih =>
    cases b with
    | nil => rfl
    | cons y ys => simp [List.zipWith, add_comm, ih]

theorem zipWith_add_assoc (a b c : List ℚ) :
    (a.zipWith (· + ·) b).zipWith (· + ·) c
      = a.zipWith (· + ·) (b.zipWith (· + ·) c) := by
  induction a generalizing b c with
  | nil => rfl
  | cons x xs ih =>
    cases b with
    | nil => rfl
    | cons y ys =>
      cases c with
      | nil => rfl
      | cons z zs => simp [List.zipWith, add_assoc, ih]

theorem zipWith_zero_left (n : Nat) (l : List ℚ) (h : l.length = n) :
    (List.replicate n (0 : ℚ)).zipWith (· + ·) l = l := by
  induction l generalizing n with
  | nil => subst h; rfl
  | cons x xs ih =>
    subst h
    simp [List.replicate, List.zipWith, ih xs.length rfl]

theorem histCounts_length (edges : List ℚ) (events : List (ℚ × ℚ)) :
    (histCounts edges events).length = edges.length - 1 := by
  simp [histCounts]

/-! ### Numeric axis with under/overflow sentinels -/

/-- Modelled from the spec: the bin identifier of a numeric Axis — a regular
bin index, or one of the two dedicated under/overflow sentinel buckets.  The
Axis implementation (coffea `hist.Bin`) is only called by the notebooks, not
defined in them. -/
inductive BinId where
  | underflow
  | inRange (i : Nat)
  | overflow
  deriving DecidableEq, Repr

/-- Modelled from the spec: `bin_index(value)` of a numeric Axis with the
given edge list — the unique `i` with `edge[i] <= v < edge[i+1]`, the
underflow sentinel below `edge[0]`, the overflow sentinel at or above the
last edge.  (The spec's binary search computes the same function as this
structural scan.) -/
def bin_index (v : ℚ) : List ℚ → BinId
  | [] => .overflow
  | [e] => if v < e then .underflow else .overflow
  | e0 :: e1 :: rest =>
    if v < e0 then .underflow
    else
      match bin_index v (e1 :: rest) with
      | .underflow => .inRange 0
      | .inRange i => .inRange (i + 1)
      | .overflow => .overflow

/-- Modelled from the spec: a one-dimensional histogram over a numeric Axis,
with a dense in-range cell array plus the two sentinel cells. -/
structure SentinelHist where
  edges : List ℚ
  under : ℚ
  cells : List ℚ
  over : ℚ
  deriving DecidableEq, Repr

/-- Add `w` to entry `i` of a cell list (identity when out of range). -/
def bumpAt (w : ℚ) : List ℚ → Nat → List ℚ
  | [], _ => []
  | c :: cs, 0 => (c + w) :: cs
  | c :: cs, n + 1 => c :: bumpAt w cs n

namespace SentinelHist

/-- Modelled from the spec: a freshly constructed histogram, all cells zero. -/
def fresh (edges : List ℚ) : SentinelHist :=
  ⟨edges, 0, List.replicate (edges.length - 1) 0, 0⟩

/-- Modelled from the spec: fill one `(value, weight)` event — the weight is
accumulated into the cell `bin_index` selects, and values outside the edge
range go to the sentinel cells rather than being dropped. -/
def fill1 (h : SentinelHist) (v w : ℚ) : SentinelHist :=
  match bin_index v h.edges with
  | .underflow => { h with under := h.under + w }
  | .inRange i => { h with cells := bumpAt w h.cells i }
  | .overflow => { h with over := h.over + w }

/-- Modelled from the spec: fill a list of `(value, weight)` events. -/
def fill (h : SentinelHist) (events : List (ℚ × ℚ)) : SentinelHist :=
  events.foldl (fun acc e => acc.fill1 e.1 e.2) h

end SentinelHist

/-! ### Growable categorical axis -/

/-- Modelled from the spec: a one-dimensional histogram over a growable
categorical axis (coffea `hist.Cat`, only called by the notebooks): an
ordered label table in first-seen order with one count cell per label, a bin
being created lazily on the first fill with a new label. -/
structure CatHist where
  labels : List String
  counts : List ℚ
  deriving DecidableEq, Repr

namespace CatHist

/-- Modelled from the spec: fresh categorical histogram, no labels yet. -/
def empty : CatHist := ⟨[], []⟩

/-- Lookup of a label in the label table: the position of its first
occurrence. -/
def labelIndex (label : String) : List String → Option Nat
  | [] => none
  | l :: ls => if l = label then some 0 else (labelIndex label ls).map (· + 1)

/-- Modelled from the spec: fill one `(label, weight)` event — a known label
accumulates into its cell, an unknown label appends a new bin (axis growth,
a defined mutation rather than an error). -/
def fill1 (h : CatHist) (label : String) (w : ℚ) : CatHist :=
  match labelIndex label h.labels with
  | some i => ⟨h.labels, bumpAt w h.counts i⟩
  | none => ⟨h.labels ++ [label], h.counts ++ [w]⟩

/-- Modelled from the spec: fill a list of `(label, weight)` events. -/
def fill (h : CatHist) (events : List (String × ℚ)) : CatHist :=
  events.foldl (fun acc e => acc.fill1 e.1 e.2) h

/-- Modelled from the spec: `identifiers()` — the labels in first-seen
order. -/
def identifiers (h : CatHist) : List String := h.labels

/-- Shape well-formedness: one count cell per label. -/
def wf (h : CatHist) : Prop := h.counts.length = h.labels.length

end CatHist

/-! ### Best-effort executor -/

/-- Modelled from the spec: the outcome of running one Task's per-chunk
function — its fresh accumulator, or the propagated error. -/
inductive TaskOutcome (α : Type) where
  | success (a : α)
  | failure (msg : String)

/-- Modelled from the spec: what a best-effort run returns — the merged
accumulator of the successful tasks together with the recorded per-task
failures (task index paired with the wrapped error). -/
structure RunResult (α : Type) where
  merged : α
  failures : List (Nat × String)
  deriving Repr

/-- Modelled from the spec: the best-effort (fail-fast=false) Executor —
fold the task outcomes from the reduction identity, merging each success
into the accumulator and recording a `TaskFailure` for each failing task
while leaving the already-merged state untouched. -/
def runBestEffort {α : Type} (identity : α) (merge : α → α → α)
    (tasks : List (TaskOutcome α)) : RunResult α :=
  tasks.enum.foldl
    (fun acc it =>
      match it.2 with
      | .success a => ⟨merge acc.merged a, acc.failures⟩
      | .failure m => ⟨acc.merged, acc.failures ++ [(it.1, m)]⟩)
    ⟨identity, []⟩

/-- The successful outcomes of a task list, in order. -/
def successValues {α : Type} (tasks : List (TaskOutcome α)) : List α :=
  tasks.filterMap fun t =>
    match t with
    | .success a => some a
    | .failure _ => none

/-! ### Operation sequences over myTH1 (for the shape invariant) -/

/-- One step of a histogram's life after construction: a fill with a batch
of events, or a merge with another histogram. -/
inductive HOp where
  | fillOp (events : List (ℚ × ℚ))
  | mergeOp (other : myTH1)

/-- Apply one operation. -/
def applyOp (h : myTH1) : HOp → Except String myTH1
  | .fillOp es => .ok (h.fill es)
  | .mergeOp other => h.add other

/-- Apply a sequence of fill/merge operations. -/
def applyOps (h : myTH1) (ops : List HOp) : Except String myTH1 :=
  ops.foldlM applyOp h

/-- Python-object view of `myTH1.__add__` for the frame property: a store of
live `myTH1` objects addressed by position; `__add__` reads its two operands,
allocates the fresh result object (`out = myTH1(self._binning)` followed by
`out._sumw = self._sumw + other._sumw`) and returns its address, writing to
no existing object. -/
def addHeap (heap : List myTH1) (i j : Nat) : Option (List myTH1 × Nat) :=
  match heap[i]?, heap[j]? with
  | some h1, some h2 =>
    match h1.add h2 with
    | .ok out => some (heap ++ [out], heap.length)
    | .error _ => none
  | _, _ => none

/-! ## Theorems -/

/-- C1: merge (`myTH1.__add__`) is associative and commutative — for
histograms `h1, h2, h3` over identical binning,
`(h1+h2)+h3 = h1+(h2+h3) = h2+(h1+h3)`, so the accumulated result does not
depend on the order in which partial results are combined. -/
theorem merge_assoc_comm (h1 h2 h3 : myTH1)
    (e12 : h1.binning = h2.binning) (e23 : h2.binning = h3.binning) :
    ((h1.add h2).bind fun h => h.add h3) = ((h2.add h3).bind fun h => h1.add h)
    ∧ ((h1.add h2).bind fun h => h.add h3)
        = ((h1.add h3).bind fun h => h2.add h) := by
  have b21 : h2.binning = h1.binning := e12.symm
  have b31 : h3.binning = h1.binning := (e12.trans e23).symm
  have b32 : h3.binning = h2.binning := e23.symm
  simp only [myTH1.add, b21, b31, b32, if_pos rfl, Except.bind]
  constructor
  · simp [zipWith_add_assoc, e12]
  · simp [e12]
    rw [← zipWith_add_assoc, zipWith_add_comm h1.sumw h2.sumw]

/-- Witness for C1 at three concrete histograms over the binning `[0, 1]`. -/
theorem merge_assoc_comm_witness :
    (((myTH1.mk [0, 1] [1]).add (myTH1.mk [0, 1] [2])).bind fun h =>
        h.add (myTH1.mk [0, 1] [3]))
      = (((myTH1.mk [0, 1] [2]).add (myTH1.mk [0, 1] [3])).bind fun h =>
        (myTH1.mk [0, 1] [1]).add h)
    ∧ (((myTH1.mk [0, 1] [1]).add (myTH1.mk [0, 1] [2])).bind fun h =>
        h.add (myTH1.mk [0, 1] [3]))
      = (((myTH1.mk [0, 1] [1]).add (myTH1.mk [0, 1] [3])).bind fun h =>
        (myTH1.mk [0, 1] [2]).add h) :=
  merge_assoc_comm ⟨[0, 1], [1]⟩ ⟨[0, 1], [2]⟩ ⟨[0, 1], [3]⟩ rfl rfl

/-- C3: identity law — merging a freshly constructed histogram with the same
binning and all cells zero (`myTH1.__init__`) into `h` returns a histogram
equal to `h` cell by cell. -/
theorem identity_law (h : myTH1) (hwf : h.wf) :
    (myTH1.init h.binning).add h = .ok h := by
  unfold myTH1.init myTH1.add
  rw [if_pos rfl]
  rw [zipWith_zero_left (h.binning.length - 1) h.sumw hwf]

/-- Witness for C3 at a concrete well-formed histogram. -/
theorem identity_law_witness :
    (myTH1.init [0, 1, 2]).add (myTH1.mk [0, 1, 2] [5, 7])
      = .ok (myTH1.mk [0, 1, 2] [5, 7]) :=
  identity_law ⟨[0, 1, 2], [5, 7]⟩ (by decide)

/-- C4: `myTH1.__add__` fails with the inconsistent-binning error (the
spec's `IncompatibleBinning`) exactly when the two edge arrays differ in
shape or contents, and succeeds exactly when they are identical. -/
theorem merge_binning_check (h1 h2 : myTH1) :
    (h1.add h2 = .error "The histograms have inconsistent binning"
      ↔ ¬h1.binning = h2.binning)
    ∧ ((∃ r, h1.add h2 = .ok r) ↔ h1.binning = h2.binning) := by
  unfold myTH1.add
  by_cases hb : h2.binning = h1.binning
  · rw [if_pos hb]
    simp [hb]
  · rw [if_neg hb]
    simp [Ne.symm hb]

theorem histCounts_perm (edges : List ℚ) {evs evs' : List (ℚ × ℚ)}
    (hp : evs.Perm evs') : histCounts edges evs = histCounts edges evs' := by
  unfold histCounts
  refine List.map_congr_left fun i _ => ?_
  exact ((hp.filter _).map Prod.snd).sum_eq

/-- C6: fill order independence — filling the same weighted events in any
permuted order into a fresh histogram produces exactly the same final cell
values. -/
theorem fill_order_independence (edges : List ℚ) (evs evs' : List (ℚ × ℚ))
    (hp : evs.Perm evs') :
    (myTH1.init edges).fill evs = (myTH1.init edges).fill evs' := by
  unfold myTH1.fill
  rw [histCounts_perm _ hp]

/-- Witness for C6 on a two-event swap. -/
theorem fill_order_independence_witness :
    (myTH1.init [0, 1]).fill [(1, 2), (0, 1)]
      = (myTH1.init [0, 1]).fill [(0, 1), (1, 2)] :=
  fill_order_independence [0, 1] [(1, 2), (0, 1)] [(0, 1), (1, 2)] (by decide)

theorem zipWith_add_map (l : List Nat) (f g : Nat → ℚ) :
    (l.map f).zipWith (· + ·) (l.map g) = l.map fun i => f i + g i := by
  induction l with
  | nil => rfl
  | cons x xs ih => simp [List.zipWith, ih]

theorem histCounts_append (edges : List ℚ) (a b : List (ℚ × ℚ)) :
    histCounts edges (a ++ b)
      = (histCounts edges a).zipWith (· + ·) (histCounts edges b) := by
  unfold histCounts
  rw [zipWith_add_map]
  refine List.map_congr_left fun i _ => ?_
  simp [List.filter_append]

theorem histCounts_nil (edges : List ℚ) :
    histCounts edges [] = List.replicate (edges.length - 1) 0 := by
  simp [histCounts, List.map_const]

theorem init_fill_nil (edges : List ℚ) :
    (myTH1.init edges).fill [] = myTH1.init edges := by
  unfold myTH1.init myTH1.fill
  rw [histCounts_nil]
  simp only [myTH1.mk.injEq, true_and]
  exact zipWith_zero_left _ _ (by simp)

theorem add_fill_fill (edges : List ℚ) (a b : List (ℚ × ℚ)) :
    ((myTH1.init edges).fill a).add ((myTH1.init edges).fill b)
      = .ok ((myTH1.init edges).fill (a ++ b)) := by
  unfold myTH1.init myTH1.fill myTH1.add
  rw [if_pos rfl]
  simp only [Except.ok.injEq, myTH1.mk.injEq, true_and]
  rw [zipWith_zero_left _ _ (histCounts_length _ _),
    zipWith_zero_left _ _ (histCounts_length _ _), histCounts_append,
    zipWith_zero_left]
  simp [histCounts_length]

theorem foldlM_chunks (edges : List ℚ) (chunks : List (List (ℚ × ℚ))) :
    ∀ pre : List (ℚ × ℚ),
      (chunks.map fun c => (myTH1.init edges).fill c).foldlM myTH1.add
          ((myTH1.init edges).fill pre)
        = .ok ((myTH1.init edges).fill (pre ++ chunks.flatten)) := by
  induction chunks with
  | nil => intro pre; simp [List.foldlM, pure, Except.pure]
  | cons c cs ih =>
    intro pre
    rw [List.map_cons, List.foldlM_cons, add_fill_fill]
    show (cs.map fun c => (myTH1.init edges).fill c).foldlM myTH1.add
        ((myTH1.init edges).fill (pre ++ c)) = _
    rw [ih (pre ++ c)]
    simp [List.append_assoc]

/-- C2: chunked-equals-whole — for every partition of an event list into
chunks, filling a fresh histogram per chunk (each starting from the
accumulator's identity) and folding all the per-chunk histograms together
with merge yields exactly the histogram obtained by filling all events in
one call. -/
theorem chunked_equals_whole (edges : List ℚ) (chunks : List (List (ℚ × ℚ))) :
    (chunks.map fun c => (myTH1.init edges).fill c).foldlM myTH1.add
        (myTH1.init edges)
      = .ok ((myTH1.init edges).fill chunks.flatten) := by
  have h := foldlM_chunks edges chunks []
  rw [init_fill_nil] at h
  simpa using h

theorem fill_wf (h : myTH1) (es : List (ℚ × ℚ)) (hw : h.wf) :
    (h.fill es).wf := by
  unfold myTH1.wf myTH1.fill at *
  simp [histCounts_length, hw]

theorem add_wf {h o h' : myTH1} (hw : h.wf) (ho : o.wf)
    (hadd : h.add o = .ok h') : h'.wf := by
  unfold myTH1.add at hadd
  by_cases hb : o.binning = h.binning
  · rw [if_pos hb] at hadd
    cases hadd
    unfold myTH1.wf at *
    simp [hw, ho, hb]
  · rw [if_neg hb] at hadd
    cases hadd

theorem bumpAt_length (w : ℚ) :
    ∀ (l : List ℚ) (i : Nat), (bumpAt w l i).length = l.length := by
  intro l
  induction l with
  | nil => intro i; rfl
  | cons c cs ih =>
    intro i
    cases i with
    | zero => rfl
    | succ n => simp [bumpAt, ih]

theorem catFill1_wf (c : CatHist) (label : String) (w : ℚ) (hc : c.wf) :
    (c.fill1 label w).wf := by
  unfold CatHist.wf CatHist.fill1 at *
  cases hidx : CatHist.labelIndex label c.labels with
  | some i => simp [bumpAt_length, hc]
  | none => simp [hc]

theorem catFill_wf (c : CatHist) (evs : List (String × ℚ)) (hc : c.wf) :
    (c.fill evs).wf := by
  unfold CatHist.fill
  induction evs generalizing c with
  | nil => exact hc
  | cons e es ih => exact ih (c.fill1 e.1 e.2) (catFill1_wf c e.1 e.2 hc)

theorem applyOps_wf :
    ∀ (ops : List HOp) (h h' : myTH1), h.wf →
      (∀ g, HOp.mergeOp g ∈ ops → g.wf) →
      applyOps h ops = .ok h' → h'.wf := by
  intro ops
  induction ops with
  | nil =>
    intro h h' hw _ hrun
    unfold applyOps at hrun
    simp [List.foldlM, pure, Except.pure] at hrun
    exact hrun ▸ hw
  | cons op ops ih =>
    intro h h' hw hops hrun
    unfold applyOps at hrun
    rw [List.foldlM_cons] at hrun
    cases hop : applyOp h op with
    | error e => rw [hop] at hrun; cases hrun
    | ok g =>
      rw [hop] at hrun
      have hg : g.wf := by
        cases op with
        | fillOp es =>
          cases hop
          exact fill_wf h es hw
        | mergeOp o =>
          exact add_wf hw (hops o (List.mem_cons_self _ _)) hop
      exact ih g h' hg (fun g' hg' => hops g' (List.mem_cons_of_mem _ hg')) hrun

/-- C8: shape invariant — a `myTH1` whose count array has one cell per bin
(`binning.size - 1` entries) keeps that shape through any successful
sequence of fill and merge operations with well-formed partners, and a
categorical histogram keeps one count cell per label through any fill,
including the fills that grow the label dimension in place. -/
theorem shape_invariant (h h' : myTH1) (ops : List HOp) (c : CatHist)
    (evs : List (String × ℚ)) (hw : h.wf)
    (hops : ∀ g, HOp.mergeOp g ∈ ops → g.wf)
    (hrun : applyOps h ops = .ok h') (hc : c.wf) :
    h'.wf ∧ (c.fill evs).wf :=
  ⟨applyOps_wf ops h h' hw hops hrun, catFill_wf c evs hc⟩

/-- Witness for C8: a merge on a three-edge binning and a categorical fill
that grows the axis. -/
theorem shape_invariant_witness :
    (myTH1.mk [0, 1, 2] [3, 4]).wf
    ∧ (CatHist.fill CatHist.empty [("A", 1), ("B", 1)]).wf :=
  shape_invariant (myTH1.init [0, 1, 2]) ⟨[0, 1, 2], [3, 4]⟩
    [HOp.mergeOp ⟨[0, 1, 2], [3, 4]⟩]
    CatHist.empty [("A", 1), ("B", 1)] (by decide)
    (by
      intro g hg
      simp only [List.mem_cons, List.not_mem_nil, or_false] at hg
      injection hg with hg
      subst hg
      decide)
    (by simp [applyOps, applyOp, myTH1.add, myTH1.init, List.foldlM, bind,
      Except.bind, pure, Except.pure])
    (by rfl)

theorem bin_index_underflow (v e : ℚ) (t : List ℚ) (h : v < e) :
    bin_index v (e :: t) = .underflow := by
  cases t <;> simp [bin_index, h]

theorem chain_lt_getD :
    ∀ (l : List ℚ) (x : ℚ), List.Chain' (· < ·) l →
      (∀ y ∈ l.head?, x < y) → ∀ j, j < l.length → x < l.getD j 0 := by
  intro l
  induction l with
  | nil => intro x _ _ j hj; simp at hj
  | cons h t ih =>
    intro x hc hx j hj
    have hxh : x < h := hx h rfl
    cases j with
    | zero => simpa using hxh
    | succ n =>
      have hct : List.Chain' (· < ·) t := hc.tail
      have hht : ∀ y ∈ t.head?, h < y := (List.chain'_cons'.mp hc).1
      have hn : n < t.length := by simpa using hj
      have := ih x hct (fun y hy => lt_trans hxh (hht y hy)) n hn
      simpa using this

theorem bin_index_inRange :
    ∀ (edges : List ℚ) (v : ℚ) (i : Nat), List.Chain' (· < ·) edges →
      i + 1 < edges.length → edges.getD i 0 ≤ v → v < edges.getD (i + 1) 0 →
      bin_index v edges = .inRange i := by
  intro edges
  induction edges with
  | nil => intro v i _ hlen _ _; simp at hlen
  | cons e0 t ih =>
    intro v i hs hlen hlo hhi
    cases t with
    | nil => simp at hlen
    | cons e1 rest =>
      cases i with
      | zero =>
        have h0 : ¬v < e0 := not_lt.mpr (by simpa using hlo)
        have h1 : bin_index v (e1 :: rest) = .underflow :=
          bin_index_underflow v e1 rest (by simpa using hhi)
        simp [bin_index, h0, h1]
      | succ j =>
        have hc' : List.Chain' (· < ·) (e1 :: rest) := hs.tail
        have hj : j + 1 < (e1 :: rest).length := by simpa using hlen
        have hlo' : (e1 :: rest).getD j 0 ≤ v := by simpa using hlo
        have hhi' : v < (e1 :: rest).getD (j + 1) 0 := by simpa using hhi
        have h0 : ¬v < e0 := by
          have he0 : e0 < (e1 :: rest).getD j 0 :=
            chain_lt_getD (e1 :: rest) e0 hc'
              (fun y hy => (List.chain'_cons'.mp hs).1 y hy) j
              (Nat.lt_of_succ_lt hj)
          exact not_lt.mpr (le_of_lt (lt_of_lt_of_le he0 hlo'))
        have hrec : bin_index v (e1 :: rest) = .inRange j := ih v j hc' hj hlo' hhi'
        simp [bin_index, h0, hrec]

/-- C5: numeric binning with under/overflow — on a strictly increasing edge
list, `bin_index` assigns each value `v` satisfying `edge[i] <= v <
edge[i+1]` to bin `i`; and filling the values `[-1, 0.5, 1.5, 1.5, 3.5]`
with weight 1 on the axis with edges `[0, 1, 2, 3]` yields underflow 1, bins
`[1, 2, 0]` and overflow 1, the out-of-range values landing in the sentinel
cells rather than being dropped. -/
theorem numeric_binning (edges : List ℚ) (v : ℚ) (i : Nat)
    (hs : List.Chain' (· < ·) edges) (hlen : i + 1 < edges.length)
    (hlo : edges.getD i 0 ≤ v) (hhi : v < edges.getD (i + 1) 0) :
    bin_index v edges = .inRange i
    ∧ (SentinelHist.fresh [0, 1, 2, 3]).fill
        [(-1, 1), (1/2, 1), (3/2, 1), (3/2, 1), (7/2, 1)]
      = ⟨[0, 1, 2, 3], 1, [1, 2, 0], 1⟩ := by
  refine ⟨bin_index_inRange edges v i hs hlen hlo hhi, ?_⟩
  norm_num [SentinelHist.fill, SentinelHist.fill1, SentinelHist.fresh,
    bin_index, bumpAt, List.foldl]

/-- Witness for C5 at the value 0 on the edges `[0, 1, 2, 3]`. -/
theorem numeric_binning_witness :
    bin_index 0 [0, 1, 2, 3] = .inRange 0
    ∧ (SentinelHist.fresh [0, 1, 2, 3]).fill
        [(-1, 1), (1/2, 1), (3/2, 1), (3/2, 1), (7/2, 1)]
      = ⟨[0, 1, 2, 3], 1, [1, 2, 0], 1⟩ :=
  numeric_binning [0, 1, 2, 3] 0 0
    (by norm_num [List.chain'_cons, List.chain'_singleton]) (by decide)
    (by decide) (by decide)

/-- C7: categorical axis growth — filling the labels `"A"`, `"B"`, `"A"`
(weight 1 each) into a fresh growable categorical histogram creates each
bin lazily on first fill, after which `identifiers()` returns
`["A", "B"]` in first-seen order and the counts are `A = 2, B = 1`. -/
theorem categorical_growth :
    (CatHist.empty.fill [("A", 1), ("B", 1), ("A", 1)]).identifiers
      = ["A", "B"]
    ∧ (CatHist.empty.fill [("A", 1), ("B", 1), ("A", 1)]).counts = [2, 1] := by
  have hab : ("A" : String) ≠ "B" := by decide
  constructor <;>
    norm_num [CatHist.fill, CatHist.fill1, CatHist.empty, CatHist.identifiers,
      CatHist.labelIndex, bumpAt, List.foldl, hab]

theorem runBestEffort_step {α : Type} (merge : α → α → α) :
    ∀ (l : List (Nat × TaskOutcome α)) (st : RunResult α),
      (l.foldl
        (fun acc it =>
          match it.2 with
          | .success a => ⟨merge acc.merged a, acc.failures⟩
          | .failure m => ⟨acc.merged, acc.failures ++ [(it.1, m)]⟩) st).merged
        = (successValues (l.map Prod.snd)).foldl merge st.merged := by
  intro l
  induction l with
  | nil => intro st; rfl
  | cons x xs ih =>
    intro st
    cases hx : x.2 with
    | success a => simp [successValues, List.foldl, hx, ih]
    | failure m => simp [successValues, List.foldl, hx, ih]

/-- C9: best-effort executor failure isolation — with fail-fast off, three
tasks of which the second raises yield the merged output of tasks 1 and 3
together with exactly one recorded `TaskFailure` for task 2 (index 1); and
in general a run's merged accumulator is the fold of the successful outcomes
only, so no failure ever corrupts the already-merged state. -/
theorem best_effort_isolation {α : Type} (identity : α) (merge : α → α → α)
    (a1 a3 : α) (m : String) :
    runBestEffort identity merge [.success a1, .failure m, .success a3]
      = ⟨merge (merge identity a1) a3, [(1, m)]⟩
    ∧ ∀ tasks : List (TaskOutcome α),
        (runBestEffort identity merge tasks).merged
          = (successValues tasks).foldl merge identity := by
  constructor
  · rfl
  · intro tasks
    unfold runBestEffort
    rw [runBestEffort_step, List.enum_map_snd]

/-- C10: merge does not mutate its operands — in the object-store view,
`myTH1.__add__` on two compatible histograms allocates a fresh object
holding the cell-wise sum at a fresh address and leaves every pre-existing
object, in particular both operands, unchanged. -/
theorem add_no_mutation (heap heap' : List myTH1) (i j r : Nat)
    (hrun : addHeap heap i j = some (heap', r)) :
    (∀ k, k < heap.length → heap'[k]? = heap[k]?)
    ∧ r = heap.length
    ∧ ∃ h1 h2, heap[i]? = some h1 ∧ heap[j]? = some h2
        ∧ h2.binning = h1.binning
        ∧ heap'[r]? = some ⟨h1.binning, h1.sumw.zipWith (· + ·) h2.sumw⟩ := by
  unfold addHeap at hrun
  split at hrun
  case h_2 => cases hrun
  case h_1 h1 h2 hi hj =>
    split at hrun
    case h_2 => cases hrun
    case h_1 out hadd =>
      cases hrun
      unfold myTH1.add at hadd
      by_cases hb : h2.binning = h1.binning
      · rw [if_pos hb] at hadd
        cases hadd
        refine ⟨fun k hk => List.getElem?_append_left hk, rfl,
          h1, h2, hi, hj, hb, ?_⟩
        exact List.getElem?_concat_length heap _
      · rw [if_neg hb] at hadd
        cases hadd

/-- Witness for C10 on a two-object store. -/
theorem add_no_mutation_witness :
    (∀ k, k < ([⟨[0, 1], [1]⟩, ⟨[0, 1], [2]⟩] : List myTH1).length →
      ([⟨[0, 1], [1]⟩, ⟨[0, 1], [2]⟩, ⟨[0, 1], [3]⟩] : List myTH1)[k]?
        = ([⟨[0, 1], [1]⟩, ⟨[0, 1], [2]⟩] : List myTH1)[k]?)
    ∧ (2 : Nat) = ([⟨[0, 1], [1]⟩, ⟨[0, 1], [2]⟩] : List myTH1).length
    ∧ ∃ h1 h2, ([⟨[0, 1], [1]⟩, ⟨[0, 1], [2]⟩] : List myTH1)[0]? = some h1
        ∧ ([⟨[0, 1], [1]⟩, ⟨[0, 1], [2]⟩] : List myTH1)[1]? = some h2
        ∧ h2.binning = h1.binning
        ∧ ([⟨[0, 1], [1]⟩, ⟨[0, 1], [2]⟩, ⟨[0, 1], [3]⟩] : List myTH1)[2]?
            = some ⟨h1.binning, h1.sumw.zipWith (· + ·) h2.sumw⟩ :=
  add_no_mutation [⟨[0, 1], [1]⟩, ⟨[0, 1], [2]⟩]
    [⟨[0, 1], [1]⟩, ⟨[0, 1], [2]⟩, ⟨[0, 1], [3]⟩] 0 1 2
    (by norm_num [addHeap, myTH1.add])

end CoffeaHats
